import Mathlib

/-!
Verification development for the Galactica zkCertificates repository.

The central object is the sparse Merkle tree of
`packages/zk-certificates/lib/merkleTree.ts` (class `MerkleTree`,
function `getMerkleRootFromProof`).  The TypeScript class stores field
elements as decimal strings and hashes with a Poseidon instance; we embed
the values as an arbitrary type `α` and the hash as an explicit binary
function `H : α → α → α`, passed to each operation the way the class
methods reach `this.poseidon`.  The empty-leaf constant
`keccak256('Galactica') % SNARK_SCALAR_FIELD` is an opaque fixed value and
is embedded as a parameter `e : α`.
-/

section MerkleTreeEmbedding

variable {α : Type}

/-- Hash of an entirely empty subtree of height `i`: entry `i` of the
`emptyBranchLevels` array, built by the loop
`levels.push(calculateNodeHash(levels[i-1], levels[i-1]))`. -/
def emptyBranch (H : α → α → α) (e : α) : Nat → α
  | 0 => e
  | i + 1 => H (emptyBranch H e i) (emptyBranch H e i)

/-- `MerkleTree.calculateNodeHash(left, right)`: one Poseidon call over the
ordered pair. -/
def calculateNodeHash (H : α → α → α) (left right : α) : α :=
  H left right

/-- `MerkleTree.calculateEmptyBranchHashes(depth)`: the list whose entry `i`
is the empty-branch hash of height `i`, for `i = 0..depth`. -/
def calculateEmptyBranchHashes (H : α → α → α) (e : α) (depth : Nat) : List α :=
  (List.range (depth + 1)).map (emptyBranch H e)

/-- State of a `MerkleTree` instance: the depth, the empty-leaf constant,
the precomputed `emptyBranchLevels`, and the per-level node arrays
(`tree[level]` is the list of populated hashes at that level). -/
structure MerkleTree (α : Type) where
  depth : Nat
  emptyLeaf : α
  emptyBranchLevels : List α
  tree : List (List α)
deriving DecidableEq

/-- The constructor `new MerkleTree(depth, poseidon)`: precompute the empty
branch hashes, give levels `0..depth-1` empty arrays, and set
`tree[depth] = [emptyBranchLevels[depth]]`. -/
def MerkleTree.new (H : α → α → α) (e : α) (depth : Nat) : MerkleTree α :=
  { depth := depth
    emptyLeaf := e
    emptyBranchLevels := calculateEmptyBranchHashes H e depth
    tree := (List.range depth).map (fun _ => []) ++ [[emptyBranch H e depth]] }

/-- Lookup `this.emptyBranchLevels[level]`.  Every use in the source has
`level < depth < emptyBranchLevels.length`, so the `getD` default is never
read on those paths. -/
def MerkleTree.eblAt (t : MerkleTree α) (level : Nat) : α :=
  t.emptyBranchLevels.getD level t.emptyLeaf

/-- One pass of the rebuild loop body in `insertLeaves`: from the nodes of a
level, produce the level above by hashing adjacent pairs
`(tree[level][pos], tree[level][pos+1] ?? emptyBranchLevels[level])` for
`pos = 0, 2, 4, ...`. -/
def hashLevel (H : α → α → α) (b : α) : List α → List α
  | [] => []
  | [x] => [calculateNodeHash H x b]
  | x :: y :: rest => calculateNodeHash H x y :: hashLevel H b rest

/-- Level `l` of the rebuilt tree: the `insertLeaves` loop writes
`tree[level+1]` from the just-finalized `tree[level]`, so level `l` is the
`l`-fold pairing of the appended leaf level. -/
def levelIter (H : α → α → α) (ebl : Nat → α) (base : List α) : Nat → List α
  | 0 => base
  | l + 1 => hashLevel H (ebl l) (levelIter H ebl base l)

/-- `MerkleTree.insertLeaves(leaves)`: early-return on an empty batch,
otherwise push the leaves onto `tree[0]` and recompute every level above
bottom-up. -/
def MerkleTree.insertLeaves (H : α → α → α) (t : MerkleTree α) (leaves : List α) :
    MerkleTree α :=
  if leaves.length = 0 then t
  else
    { t with
      tree := (List.range (t.depth + 1)).map
        (levelIter H t.eblAt (t.tree.getD 0 [] ++ leaves)) }

/-- The getter `get root() { return this.tree[this.depth][0]; }`.  The entry
always exists on states reachable through the constructor and
`insertLeaves` (proved below), so the `getD` defaults are never read
there. -/
def MerkleTree.root (t : MerkleTree α) : α :=
  (t.tree.getD t.depth []).getD 0 t.emptyLeaf

/-- The `MerkleProof` record `{leaf, pathElements, leafIndex}`. -/
structure MerkleProof (α : Type) where
  leaf : α
  pathElements : List α
  leafIndex : Nat
deriving DecidableEq

/-- JavaScript `Array.prototype.indexOf`, returning `none` instead of `-1`
when the element is absent: the index of the first occurrence. -/
def indexOfFirst [DecidableEq α] : List α → α → Option Nat
  | [], _ => none
  | x :: rest, a => if x = a then some 0 else (indexOfFirst rest a).map (· + 1)

/-- The proof-path loop of `createProof`: for `depth` rounds starting at
`(level, curIndex) = (0, leafIndex)`, push
`tree[level][curIndex+1] ?? emptyBranchLevels[level]` when `curIndex` is
even and `tree[level][curIndex-1]` when odd, then halve the index.  The odd
arm has no `??` fallback in the source; an absent entry there would be JS
`undefined`, which never happens on trees built by `insertLeaves`, and the
embedding returns the placeholder `emptyLeaf` in that unreachable case. -/
def MerkleTree.proofPathAux (t : MerkleTree α) : Nat → Nat → Nat → List α
  | 0, _, _ => []
  | r + 1, level, curIndex =>
    (if curIndex % 2 = 0 then
      ((t.tree.getD level [])[curIndex + 1]?).getD (t.eblAt level)
    else
      (t.tree.getD level []).getD (curIndex - 1) t.emptyLeaf) ::
      t.proofPathAux r (level + 1) (curIndex / 2)

/-- `MerkleTree.createProof(leaf)`: find the first occurrence of the leaf in
`tree[0]` (`none` embeds the thrown `not in the list of leaves` error) and
walk up the tree collecting siblings. -/
def MerkleTree.createProof [DecidableEq α] (t : MerkleTree α) (leaf : α) :
    Option (MerkleProof α) :=
  match indexOfFirst (t.tree.getD 0 []) leaf with
  | none => none
  | some leafIndex => some ⟨leaf, t.proofPathAux t.depth 0 leafIndex, leafIndex⟩

/-- The loop of `getMerkleRootFromProof`: at path position `i` the side is
chosen by `(BigInt(leafIndex) >> BigInt(i)) % 2n === 1n`. -/
def rootFromProofAux (H : α → α → α) (leafIndex : Nat) : Nat → α → List α → α
  | _, cur, [] => cur
  | i, cur, p :: rest =>
    if (leafIndex >>> i) % 2 = 1 then
      rootFromProofAux H leafIndex (i + 1) (calculateNodeHash H p cur) rest
    else
      rootFromProofAux H leafIndex (i + 1) (calculateNodeHash H cur p) rest

/-- `getMerkleRootFromProof(proof, poseidon)`: hash up from the leaf along
the path elements. -/
def getMerkleRootFromProof (H : α → α → α) (proof : MerkleProof α) : α :=
  rootFromProofAux H proof.leafIndex 0 proof.leaf proof.pathElements

/-- Spec wording of proof verification (spec section 4.2): a pure left fold
over the indexed path elements, the side at position `i` chosen by bit `i`
of `leafIndex`. -/
def verifyProofSpec (H : α → α → α) (proof : MerkleProof α) : α :=
  proof.pathElements.enum.foldl
    (fun cur pe =>
      if proof.leafIndex.testBit pe.1 then calculateNodeHash H pe.2 cur
      else calculateNodeHash H cur pe.2)
    proof.leaf

end MerkleTreeEmbedding

section MerkleTreeLemmas

variable {α : Type}

theorem calculateEmptyBranchHashes_length (H : α → α → α) (e : α) (depth : Nat) :
    (calculateEmptyBranchHashes H e depth).length = depth + 1 := by
  simp [calculateEmptyBranchHashes]

theorem calculateEmptyBranchHashes_getD (H : α → α → α) (e : α) (depth l : Nat)
    (hl : l ≤ depth) (d : α) :
    (calculateEmptyBranchHashes H e depth).getD l d = emptyBranch H e l := by
  simp [calculateEmptyBranchHashes, List.getD_eq_getElem?_getD, List.getElem?_map,
    List.getElem?_range (Nat.lt_succ_of_le hl)]

theorem MerkleTree.new_depth (H : α → α → α) (e : α) (d : Nat) :
    (MerkleTree.new H e d).depth = d := rfl

theorem MerkleTree.new_emptyLeaf (H : α → α → α) (e : α) (d : Nat) :
    (MerkleTree.new H e d).emptyLeaf = e := rfl

theorem MerkleTree.new_eblAt (H : α → α → α) (e : α) (d l : Nat) (hl : l ≤ d) :
    (MerkleTree.new H e d).eblAt l = emptyBranch H e l :=
  calculateEmptyBranchHashes_getD H e d l hl e

theorem MerkleTree.new_tree_getD_lt (H : α → α → α) (e : α) (d l : Nat) (hl : l < d) :
    (MerkleTree.new H e d).tree.getD l [] = [] := by
  simp [MerkleTree.new, List.getD_eq_getElem?_getD, List.getElem?_append, hl,
    List.getElem?_map, List.getElem?_range hl]

theorem MerkleTree.new_tree_getD_depth (H : α → α → α) (e : α) (d : Nat) :
    (MerkleTree.new H e d).tree.getD d [] = [emptyBranch H e d] := by
  have hlen : ((List.range d).map (fun _ : Nat => ([] : List α))).length = d := by simp
  rw [MerkleTree.new, List.getD_eq_getElem?_getD, List.getElem?_append_right hlen.le]
  simp [hlen]

theorem MerkleTree.insertLeaves_nil (H : α → α → α) (t : MerkleTree α) :
    t.insertLeaves H [] = t := by
  simp [MerkleTree.insertLeaves]

theorem MerkleTree.insertLeaves_depth (H : α → α → α) (t : MerkleTree α) (leaves : List α) :
    (t.insertLeaves H leaves).depth = t.depth := by
  by_cases h : leaves.length = 0 <;> simp [MerkleTree.insertLeaves, h]

theorem MerkleTree.insertLeaves_emptyLeaf (H : α → α → α) (t : MerkleTree α)
    (leaves : List α) :
    (t.insertLeaves H leaves).emptyLeaf = t.emptyLeaf := by
  by_cases h : leaves.length = 0 <;> simp [MerkleTree.insertLeaves, h]

theorem MerkleTree.insertLeaves_emptyBranchLevels (H : α → α → α) (t : MerkleTree α)
    (leaves : List α) :
    (t.insertLeaves H leaves).emptyBranchLevels = t.emptyBranchLevels := by
  by_cases h : leaves.length = 0 <;> simp [MerkleTree.insertLeaves, h]

theorem MerkleTree.insertLeaves_eblAt (H : α → α → α) (t : MerkleTree α)
    (leaves : List α) :
    (t.insertLeaves H leaves).eblAt = t.eblAt := by
  funext l
  simp [MerkleTree.eblAt, MerkleTree.insertLeaves_emptyBranchLevels,
    MerkleTree.insertLeaves_emptyLeaf]

theorem hashLevel_length (H : α → α → α) (b : α) :
    ∀ xs : List α, (hashLevel H b xs).length = (xs.length + 1) / 2
  | [] => by simp [hashLevel]
  | [_] => by simp [hashLevel]
  | _ :: _ :: rest => by
    simp [hashLevel, hashLevel_length H b rest]
    omega

theorem hashLevel_getElem (H : α → α → α) (b dflt : α) :
    ∀ (xs : List α) (p : Nat), 2 * p < xs.length →
      (hashLevel H b xs)[p]? =
        some (calculateNodeHash H (xs.getD (2 * p) dflt) ((xs[2 * p + 1]?).getD b))
  | [], p, h => by simp at h
  | [x], 0, _ => by simp [hashLevel]
  | [x], p + 1, h => by simp at h
  | x :: y :: rest, 0, _ => by simp [hashLevel]
  | x :: y :: rest, p + 1, h => by
    have hr : 2 * p < rest.length := by
      simp only [List.length_cons] at h; omega
    have h2 : 2 * (p + 1) = 2 * p + 1 + 1 := by ring
    simp only [hashLevel, List.getElem?_cons_succ, h2, List.getD_cons_succ]
    exact hashLevel_getElem H b dflt rest p hr

theorem nat_div_succ_half (m a : Nat) (ha : 0 < a) :
    (m / a + 1) / 2 = (m + a) / (2 * a) := by
  rw [← Nat.add_div_right m ha, Nat.div_div_eq_div_mul, Nat.mul_comm]

theorem levelIter_length (H : α → α → α) (ebl : Nat → α) (base : List α) :
    ∀ l, (levelIter H ebl base l).length = (base.length + 2 ^ l - 1) / 2 ^ l
  | 0 => by simp [levelIter]
  | l + 1 => by
    have h1 : 0 < 2 ^ l := Nat.two_pow_pos l
    have hp : 2 ^ (l + 1) = 2 * 2 ^ l := by rw [pow_succ]; ring
    rw [levelIter, hashLevel_length, levelIter_length H ebl base l,
      nat_div_succ_half _ _ h1, hp]
    congr 1
    omega

theorem range_map_getD {β : Type} (f : Nat → β) (m l : Nat) (hl : l < m) (d : β) :
    ((List.range m).map f).getD l d = f l := by
  simp [List.getD_eq_getElem?_getD, List.getElem?_map, List.getElem?_range hl]

theorem MerkleTree.insertLeaves_tree_getD (H : α → α → α) (t : MerkleTree α)
    (leaves : List α) (hne : leaves.length ≠ 0) (l : Nat) (hl : l ≤ t.depth) :
    (t.insertLeaves H leaves).tree.getD l [] =
      levelIter H t.eblAt (t.tree.getD 0 [] ++ leaves) l := by
  simp only [MerkleTree.insertLeaves, hne, if_false, ite_false]
  exact range_map_getD _ _ _ (Nat.lt_succ_of_le hl) _

end MerkleTreeLemmas

section ProofVerification

variable {α : Type}

/-- Index-halving form of the verification fold: the current position is
carried along, its parity selects the side, and it halves at each level,
matching the way `createProof` walks `curIndex` up the tree. -/
def foldPathC (H : α → α → α) : α → Nat → List α → α
  | cur, _, [] => cur
  | cur, c, p :: rest =>
    foldPathC H
      (if c % 2 = 1 then calculateNodeHash H p cur else calculateNodeHash H cur p)
      (c / 2) rest

theorem rootFromProofAux_eq_foldPathC (H : α → α → α) (L : Nat) :
    ∀ (path : List α) (i : Nat) (cur : α),
      rootFromProofAux H L i cur path = foldPathC H cur (L >>> i) path
  | [], _, _ => rfl
  | p :: rest, i, cur => by
    have hs : L >>> (i + 1) = L >>> i / 2 := Nat.shiftRight_succ L i
    simp only [rootFromProofAux, foldPathC]
    by_cases hb : (L >>> i) % 2 = 1
    · rw [if_pos hb, if_pos hb, rootFromProofAux_eq_foldPathC H L rest (i + 1), hs]
    · rw [if_neg hb, if_neg hb, rootFromProofAux_eq_foldPathC H L rest (i + 1), hs]

theorem getMerkleRootFromProof_eq_foldPathC (H : α → α → α) (proof : MerkleProof α) :
    getMerkleRootFromProof H proof =
      foldPathC H proof.leaf proof.leafIndex proof.pathElements := by
  rw [getMerkleRootFromProof, rootFromProofAux_eq_foldPathC, Nat.shiftRight_zero]

theorem MerkleTree.proofPathAux_length (t : MerkleTree α) :
    ∀ r level i, (t.proofPathAux r level i).length = r
  | 0, _, _ => rfl
  | r + 1, level, i => by
    simp [MerkleTree.proofPathAux, t.proofPathAux_length r (level + 1) (i / 2)]

/-- Main climb invariant: on a tree whose stored levels agree with the
bottom-up pairing `levelIter` and whose empty-branch lookups agree with
`ebl`, folding the proof path produced by the `createProof` loop from any
populated position recomputes the single entry of the top level. -/
theorem merkle_climb (H : α → α → α) (t : MerkleTree α) (ebl : Nat → α) (base : List α)
    (htree : ∀ l, l ≤ t.depth → t.tree.getD l [] = levelIter H ebl base l)
    (hebl : ∀ l, l < t.depth → t.eblAt l = ebl l) :
    ∀ (r : Nat), ∀ (level i : Nat), level + r = t.depth →
      i < (levelIter H ebl base level).length →
      (levelIter H ebl base level).length ≤ 2 ^ r →
      foldPathC H ((levelIter H ebl base level).getD i t.emptyLeaf) i
          (t.proofPathAux r level i) =
        (levelIter H ebl base t.depth).getD 0 t.emptyLeaf := by
  intro r
  induction r with
  | zero =>
    intro level i hlr hi hlen
    have hl0 : level = t.depth := by omega
    have hi0 : i = 0 := by
      simp only [pow_zero] at hlen
      omega
    subst hl0
    subst hi0
    simp [MerkleTree.proofPathAux, foldPathC]
  | succ r ih =>
    intro level i hlr hi hlen
    have hlevlt : level < t.depth := by omega
    have hxs_tree : t.tree.getD level [] = levelIter H ebl base level :=
      htree level hlevlt.le
    have hb : t.eblAt level = ebl level := hebl level hlevlt
    have hstep : levelIter H ebl base (level + 1) =
        hashLevel H (ebl level) (levelIter H ebl base level) := rfl
    simp only [MerkleTree.proofPathAux, foldPathC]
    have hcur2 :
        (if i % 2 = 1 then
          calculateNodeHash H
            (if i % 2 = 0 then
              ((t.tree.getD level [])[i + 1]?).getD (t.eblAt level)
            else (t.tree.getD level []).getD (i - 1) t.emptyLeaf)
            ((levelIter H ebl base level).getD i t.emptyLeaf)
        else
          calculateNodeHash H ((levelIter H ebl base level).getD i t.emptyLeaf)
            (if i % 2 = 0 then
              ((t.tree.getD level [])[i + 1]?).getD (t.eblAt level)
            else (t.tree.getD level []).getD (i - 1) t.emptyLeaf)) =
        (levelIter H ebl base (level + 1)).getD (i / 2) t.emptyLeaf := by
      by_cases hpar : i % 2 = 0
      · have hieq : 2 * (i / 2) = i := by omega
        have hget := hashLevel_getElem H (ebl level) t.emptyLeaf
          (levelIter H ebl base level) (i / 2) (by omega)
        rw [hieq] at hget
        rw [if_neg (by omega), if_pos hpar, hxs_tree, hb, hstep,
          List.getD_eq_getElem?_getD
            (hashLevel H (ebl level) (levelIter H ebl base level)) (i / 2),
          hget]
        rfl
      · have hpar1 : i % 2 = 1 := by omega
        have h2lt : 2 * (i / 2) < (levelIter H ebl base level).length := by omega
        have hget := hashLevel_getElem H (ebl level) t.emptyLeaf
          (levelIter H ebl base level) (i / 2) h2lt
        have hieq : 2 * (i / 2) + 1 = i := by omega
        have hisub : 2 * (i / 2) = i - 1 := by omega
        rw [hieq, hisub] at hget
        have hxi : (levelIter H ebl base level)[i]? =
            some ((levelIter H ebl base level).getD i t.emptyLeaf) := by
          rw [List.getD_eq_getElem?_getD, List.getElem?_eq_getElem hi]
          rfl
        rw [hxi] at hget
        rw [if_pos hpar1, if_neg (by omega), hxs_tree, hstep,
          List.getD_eq_getElem?_getD
            (hashLevel H (ebl level) (levelIter H ebl base level)) (i / 2),
          hget]
        rfl
    rw [hcur2]
    have hlen1 : (levelIter H ebl base (level + 1)).length =
        ((levelIter H ebl base level).length + 1) / 2 := by
      rw [hstep, hashLevel_length]
    have hpow : 2 ^ (r + 1) = 2 * 2 ^ r := by rw [pow_succ]; ring
    exact ih (level + 1) (i / 2) (by omega) (by omega) (by omega)

theorem indexOfFirst_eq_none_iff [DecidableEq α] :
    ∀ (xs : List α) (a : α), indexOfFirst xs a = none ↔ a ∉ xs
  | [], a => by simp [indexOfFirst]
  | x :: rest, a => by
    by_cases hx : x = a
    · simp [indexOfFirst, hx]
    · simp only [indexOfFirst, if_neg hx, Option.map_eq_none', List.mem_cons,
        indexOfFirst_eq_none_iff rest a]
      constructor
      · rintro hnot (rfl | hmem)
        · exact hx rfl
        · exact hnot hmem
      · intro hnot hmem
        exact hnot (Or.inr hmem)

theorem indexOfFirst_spec [DecidableEq α] :
    ∀ (xs : List α) (a : α) (i : Nat), indexOfFirst xs a = some i →
      xs[i]? = some a ∧ ∀ j, j < i → xs[j]? ≠ some a
  | [], a, i => by simp [indexOfFirst]
  | x :: rest, a, i => by
    by_cases hx : x = a
    · simp only [indexOfFirst, if_pos hx, Option.some_inj]
      rintro rfl
      refine ⟨by simp [hx], ?_⟩
      intro j hj
      omega
    · intro h
      simp only [indexOfFirst, if_neg hx, Option.map_eq_some'] at h
      obtain ⟨j, hj, rfl⟩ := h
      obtain ⟨h1, h2⟩ := indexOfFirst_spec rest a j hj
      refine ⟨by simpa using h1, ?_⟩
      intro k hk
      cases k with
      | zero =>
        intro hcontra
        rw [List.getElem?_cons_zero] at hcontra
        exact hx (Option.some.inj hcontra)
      | succ k =>
        simp only [List.getElem?_cons_succ]
        exact h2 k (by omega)

end ProofVerification

section CreateProofLemmas

variable {α : Type}

theorem MerkleTree.createProof_eq_some [DecidableEq α] (t : MerkleTree α) (leaf : α)
    (i : Nat) (h : indexOfFirst (t.tree.getD 0 []) leaf = some i) :
    t.createProof leaf = some ⟨leaf, t.proofPathAux t.depth 0 i, i⟩ := by
  simp only [MerkleTree.createProof, h]

theorem MerkleTree.createProof_eq_none_iff [DecidableEq α] (t : MerkleTree α) (leaf : α) :
    t.createProof leaf = none ↔ leaf ∉ t.tree.getD 0 [] := by
  rw [← indexOfFirst_eq_none_iff (t.tree.getD 0 []) leaf]
  constructor
  · intro h
    rcases hopt : indexOfFirst (t.tree.getD 0 []) leaf with _ | i
    · rfl
    · rw [MerkleTree.createProof_eq_some t leaf i hopt] at h
      exact absurd h (by simp)
  · intro h
    simp only [MerkleTree.createProof, h]

theorem rootFromProofAux_enum (H : α → α → α) (L : Nat) :
    ∀ (path : List α) (i : Nat) (cur : α),
      rootFromProofAux H L i cur path =
        (List.enumFrom i path).foldl
          (fun cur pe =>
            if L.testBit pe.1 then calculateNodeHash H pe.2 cur
            else calculateNodeHash H cur pe.2) cur
  | [], _, _ => rfl
  | p :: rest, i, cur => by
    have hb : L.testBit i = decide ((L >>> i) % 2 = 1) := by
      rw [Nat.testBit_to_div_mod, Nat.shiftRight_eq_div_pow]
    simp only [rootFromProofAux, List.enumFrom, List.foldl_cons, hb]
    by_cases hbit : (L >>> i) % 2 = 1
    · rw [if_pos hbit, if_pos (decide_eq_true hbit),
        rootFromProofAux_enum H L rest (i + 1)]
    · rw [if_neg hbit, if_neg (fun h => hbit (of_decide_eq_true h)),
        rootFromProofAux_enum H L rest (i + 1)]

end CreateProofLemmas

/-- Concrete hash function over `Nat` used to instantiate witnesses and
counterexamples; any binary function works for them. -/
def Hnat : Nat → Nat → Nat := fun a b => a + 2 * b + 1

/-- Claim C1, amended to depths `d ≥ 1`: for every depth `d ≥ 1` and every
ordered leaf sequence of length at most `2 ^ d` inserted via `insertLeaves`
into a freshly constructed tree of depth `d`, every leaf occurring in the
sequence gets a proof from `createProof`, and `getMerkleRootFromProof` on
that proof yields exactly the tree root `tree[depth][0]`. -/
theorem claim1_theorem {α : Type} [DecidableEq α] (H : α → α → α) (e : α)
    (d : Nat) (hd : 1 ≤ d) (leaves : List α) (hlen : leaves.length ≤ 2 ^ d)
    (leaf : α) (hmem : leaf ∈ leaves) :
    ∃ pf, ((MerkleTree.new H e d).insertLeaves H leaves).createProof leaf = some pf ∧
      getMerkleRootFromProof H pf =
        ((MerkleTree.new H e d).insertLeaves H leaves).root := by
  have hne : leaves.length ≠ 0 := by
    intro h0
    rw [List.length_eq_zero] at h0
    subst h0
    simp at hmem
  have hdepth : ((MerkleTree.new H e d).insertLeaves H leaves).depth = d := by
    rw [MerkleTree.insertLeaves_depth, MerkleTree.new_depth]
  have hbase0 : (MerkleTree.new H e d).tree.getD 0 [] = [] :=
    MerkleTree.new_tree_getD_lt H e d 0 hd
  have htree : ∀ l, l ≤ ((MerkleTree.new H e d).insertLeaves H leaves).depth →
      ((MerkleTree.new H e d).insertLeaves H leaves).tree.getD l [] =
        levelIter H (MerkleTree.new H e d).eblAt leaves l := by
    intro l hl
    have h2 := MerkleTree.insertLeaves_tree_getD H (MerkleTree.new H e d) leaves hne l
      (by rw [hdepth] at hl; exact hl)
    rw [hbase0, List.nil_append] at h2
    exact h2
  have hebl : ∀ l, l < ((MerkleTree.new H e d).insertLeaves H leaves).depth →
      ((MerkleTree.new H e d).insertLeaves H leaves).eblAt l =
        (MerkleTree.new H e d).eblAt l := by
    intro l _
    rw [MerkleTree.insertLeaves_eblAt]
  have hlevel0 : ((MerkleTree.new H e d).insertLeaves H leaves).tree.getD 0 [] = leaves :=
    htree 0 (Nat.zero_le _)
  obtain ⟨i, hi⟩ : ∃ i, indexOfFirst leaves leaf = some i := by
    rcases hopt : indexOfFirst leaves leaf with _ | i
    · rw [indexOfFirst_eq_none_iff] at hopt
      exact absurd hmem hopt
    · exact ⟨i, rfl⟩
  obtain ⟨hget, _⟩ := indexOfFirst_spec leaves leaf i hi
  obtain ⟨hilt, _⟩ := List.getElem?_eq_some.mp hget
  refine ⟨⟨leaf, ((MerkleTree.new H e d).insertLeaves H leaves).proofPathAux
      ((MerkleTree.new H e d).insertLeaves H leaves).depth 0 i, i⟩, ?_, ?_⟩
  · have := MerkleTree.createProof_eq_some
      ((MerkleTree.new H e d).insertLeaves H leaves) leaf i (by rw [hlevel0]; exact hi)
    exact this
  · rw [getMerkleRootFromProof_eq_foldPathC]
    have hleafD :
        leaves.getD i (((MerkleTree.new H e d).insertLeaves H leaves).emptyLeaf) = leaf := by
      rw [List.getD_eq_getElem?_getD, hget]
      rfl
    have hclimb := merkle_climb H ((MerkleTree.new H e d).insertLeaves H leaves)
      (MerkleTree.new H e d).eblAt leaves htree hebl
      ((MerkleTree.new H e d).insertLeaves H leaves).depth 0 i (Nat.zero_add _)
      (by simpa [levelIter] using hilt)
      (by simpa [levelIter, hdepth] using hlen)
    rw [MerkleTree.root, htree _ le_rfl]
    have hl0 : levelIter H (MerkleTree.new H e d).eblAt leaves 0 = leaves := rfl
    rw [hl0, hleafD] at hclimb
    exact hclimb

/-- Witness for C1 at the concrete depth-2 scenario of spec section 8:
leaves `[5, 6, 7]`, proof for the third leaf. -/
theorem claim1_witness :
    ∃ pf, ((MerkleTree.new Hnat 0 2).insertLeaves Hnat [5, 6, 7]).createProof 7 = some pf ∧
      getMerkleRootFromProof Hnat pf =
        ((MerkleTree.new Hnat 0 2).insertLeaves Hnat [5, 6, 7]).root :=
  claim1_theorem Hnat 0 2 (by decide) [5, 6, 7] (by decide) 7 (by decide)

/-- Counterexample to C1 as stated (which also allows `d = 0`): at depth 0
the constructor pre-seeds level 0 with the empty leaf, so an inserted leaf
lands at index 1, its proof has an empty path, and verification returns the
leaf itself while the root stays the pre-seeded empty leaf. -/
theorem claim1_counterexample :
    ((((MerkleTree.new Hnat 0 0).insertLeaves Hnat [1]).createProof 1).map
        (getMerkleRootFromProof Hnat)) = some 1 ∧
      ((MerkleTree.new Hnat 0 0).insertLeaves Hnat [1]).root = 0 ∧
      (1 : Nat) ≠ 0 := by
  decide

/-- Claim C2: `emptyBranchLevels` satisfies `levels[0] = emptyLeaf`,
`levels[i] = H(levels[i-1], levels[i-1])`, has `depth + 1` entries, and the
root of a freshly constructed tree equals `emptyBranchLevels[depth]`. -/
theorem claim2_theorem {α : Type} (H : α → α → α) (e : α) (d : Nat) :
    (calculateEmptyBranchHashes H e d).length = d + 1 ∧
    (calculateEmptyBranchHashes H e d).getD 0 e = e ∧
    (∀ i, i < d →
      (calculateEmptyBranchHashes H e d).getD (i + 1) e =
        calculateNodeHash H ((calculateEmptyBranchHashes H e d).getD i e)
          ((calculateEmptyBranchHashes H e d).getD i e)) ∧
    (MerkleTree.new H e d).root = (calculateEmptyBranchHashes H e d).getD d e := by
  refine ⟨calculateEmptyBranchHashes_length H e d, ?_, ?_, ?_⟩
  · rw [calculateEmptyBranchHashes_getD H e d 0 (Nat.zero_le d) e]
    rfl
  · intro i hi
    rw [calculateEmptyBranchHashes_getD H e d (i + 1) (by omega) e,
      calculateEmptyBranchHashes_getD H e d i (by omega) e]
    rfl
  · rw [calculateEmptyBranchHashes_getD H e d d le_rfl e, MerkleTree.root,
      MerkleTree.new_depth, MerkleTree.new_emptyLeaf, MerkleTree.new_tree_getD_depth H e d]
    rfl

/-- Witness for C2 at depth 3, recurrence instantiated at `i = 1`. -/
theorem claim2_witness :
    (calculateEmptyBranchHashes Hnat 0 3).getD 2 0 =
      calculateNodeHash Hnat ((calculateEmptyBranchHashes Hnat 0 3).getD 1 0)
        ((calculateEmptyBranchHashes Hnat 0 3).getD 1 0) :=
  (claim2_theorem Hnat 0 3).2.2.1 1 (by decide)

/-- Claim C3: `insertLeaves` appends the leaves to level 0 in order, then
recomputes every level above: level `l + 1` has exactly
`ceil(len(level l) / 2) = (len(level l) + 1) / 2` entries, the parent at
position `p` being `H(level[l][2p], level[l][2p+1])` with
`emptyBranchLevels[l]` substituted for an absent right sibling; an empty
batch leaves the tree unchanged. -/
theorem claim3_theorem {α : Type} (H : α → α → α) (t : MerkleTree α) (leaves : List α) :
    (leaves.length = 0 → t.insertLeaves H leaves = t) ∧
    (leaves.length ≠ 0 →
      (t.insertLeaves H leaves).tree.getD 0 [] = t.tree.getD 0 [] ++ leaves ∧
      ∀ l, l < t.depth →
        ((t.insertLeaves H leaves).tree.getD (l + 1) []).length =
          (((t.insertLeaves H leaves).tree.getD l []).length + 1) / 2 ∧
        ∀ p, 2 * p < ((t.insertLeaves H leaves).tree.getD l []).length →
          ((t.insertLeaves H leaves).tree.getD (l + 1) [])[p]? =
            some (calculateNodeHash H
              (((t.insertLeaves H leaves).tree.getD l []).getD (2 * p) t.emptyLeaf)
              ((((t.insertLeaves H leaves).tree.getD l [])[2 * p + 1]?).getD
                (t.eblAt l)))) := by
  constructor
  · intro h
    simp [MerkleTree.insertLeaves, h]
  · intro hne
    have h0 := MerkleTree.insertLeaves_tree_getD H t leaves hne 0 (Nat.zero_le _)
    refine ⟨h0, ?_⟩
    intro l hl
    have hgl := MerkleTree.insertLeaves_tree_getD H t leaves hne l (le_of_lt hl)
    have hgl1 := MerkleTree.insertLeaves_tree_getD H t leaves hne (l + 1) hl
    have hstep : levelIter H t.eblAt (t.tree.getD 0 [] ++ leaves) (l + 1) =
        hashLevel H (t.eblAt l)
          (levelIter H t.eblAt (t.tree.getD 0 [] ++ leaves) l) := rfl
    constructor
    · rw [hgl, hgl1, hstep, hashLevel_length]
    · intro p hp
      rw [hgl] at hp
      rw [hgl, hgl1, hstep, hashLevel_getElem H (t.eblAt l) t.emptyLeaf _ p hp]

/-- Witness for C3: inserting `[5, 6, 7]` into a fresh depth-2 tree appends
them to the (empty) leaf level. -/
theorem claim3_witness :
    ((MerkleTree.new Hnat 0 2).insertLeaves Hnat [5, 6, 7]).tree.getD 0 [] =
      (MerkleTree.new Hnat 0 2).tree.getD 0 [] ++ [5, 6, 7] :=
  ((claim3_theorem Hnat (MerkleTree.new Hnat 0 2) [5, 6, 7]).2 (by decide)).1

/-- Claim C4: `createProof` fails exactly when the leaf is absent from level
0; on success the returned proof carries the leaf, the index of its first
occurrence in level 0 (so a duplicated leaf is only provable at its first
occurrence), and one sibling per level (`pathElements.length = depth`). -/
theorem claim4_theorem {α : Type} [DecidableEq α] (t : MerkleTree α) (leaf : α) :
    (t.createProof leaf = none ↔ leaf ∉ t.tree.getD 0 []) ∧
    ∀ pf, t.createProof leaf = some pf →
      pf.leaf = leaf ∧
      pf.pathElements.length = t.depth ∧
      (t.tree.getD 0 [])[pf.leafIndex]? = some leaf ∧
      ∀ j, j < pf.leafIndex → (t.tree.getD 0 [])[j]? ≠ some leaf := by
  refine ⟨MerkleTree.createProof_eq_none_iff t leaf, ?_⟩
  intro pf hpf
  rcases hopt : indexOfFirst (t.tree.getD 0 []) leaf with _ | i
  · have hnone : t.createProof leaf = none :=
      (MerkleTree.createProof_eq_none_iff t leaf).mpr
        ((indexOfFirst_eq_none_iff _ _).mp hopt)
    rw [hnone] at hpf
    cases hpf
  · rw [MerkleTree.createProof_eq_some t leaf i hopt] at hpf
    obtain ⟨h1, h2⟩ := indexOfFirst_spec _ _ _ hopt
    cases Option.some.inj hpf
    exact ⟨rfl, t.proofPathAux_length _ _ _, h1, h2⟩

/-- Witness for C4 on a tree holding the duplicated leaf sequence
`[5, 6, 5]`: the proof for leaf `5` points at index 0, the first
occurrence. -/
theorem claim4_witness :
    (5 : Nat) = 5 ∧
    ([6, 6] : List Nat).length = ((MerkleTree.new Hnat 0 2).insertLeaves Hnat [5, 6, 5]).depth ∧
    (((MerkleTree.new Hnat 0 2).insertLeaves Hnat [5, 6, 5]).tree.getD 0 [])[(0 : Nat)]? =
      some 5 ∧
    ∀ j, j < 0 →
      (((MerkleTree.new Hnat 0 2).insertLeaves Hnat [5, 6, 5]).tree.getD 0 [])[j]? ≠
        some 5 :=
  (claim4_theorem ((MerkleTree.new Hnat 0 2).insertLeaves Hnat [5, 6, 5]) 5).2
    ⟨5, [6, 6], 0⟩ (by decide)

/-- Claim C5: `getMerkleRootFromProof` is the pure deterministic fold from
`proof.leaf` over the indexed path elements, bit `i` of `leafIndex`
choosing whether the current node is the right (`H path[i] cur`) or left
(`H cur path[i]`) argument of `calculateNodeHash`; being a pure function of
the proof, equal inputs give equal outputs and no state is modified. -/
theorem claim5_theorem {α : Type} (H : α → α → α) (proof : MerkleProof α) :
    getMerkleRootFromProof H proof = verifyProofSpec H proof := by
  rw [getMerkleRootFromProof,
    rootFromProofAux_enum H proof.leafIndex proof.pathElements 0 proof.leaf]
  rfl

/-- Claim C7: construction is total for every depth `d ≥ 0` (depths are
naturals here, so no `depth < 0` failure is representable): the constructor
produces a well-formed tree with `depth + 1` levels, `depth + 1` empty
branch hashes, and the root entry set. -/
theorem claim7_theorem {α : Type} (H : α → α → α) (e : α) (d : Nat) :
    (MerkleTree.new H e d).depth = d ∧
    (MerkleTree.new H e d).tree.length = d + 1 ∧
    (MerkleTree.new H e d).emptyBranchLevels.length = d + 1 ∧
    ((MerkleTree.new H e d).tree.getD d [])[(0 : Nat)]? = some (emptyBranch H e d) := by
  refine ⟨rfl, ?_, calculateEmptyBranchHashes_length H e d, ?_⟩
  · simp [MerkleTree.new]
  · rw [MerkleTree.new_tree_getD_depth H e d]
    rfl

section Reachability

variable {α : Type}

theorem MerkleTree.insertLeaves_tree (H : α → α → α) (t : MerkleTree α)
    (leaves : List α) (hne : leaves.length ≠ 0) :
    (t.insertLeaves H leaves).tree =
      (List.range (t.depth + 1)).map (levelIter H t.eblAt (t.tree.getD 0 [] ++ leaves)) := by
  simp only [MerkleTree.insertLeaves, hne, if_false, ite_false]

theorem MerkleTree.ext_fields (u v : MerkleTree α) (h1 : u.depth = v.depth)
    (h2 : u.emptyLeaf = v.emptyLeaf) (h3 : u.emptyBranchLevels = v.emptyBranchLevels)
    (h4 : u.tree = v.tree) : u = v := by
  cases u
  cases v
  cases h1
  cases h2
  cases h3
  cases h4
  rfl

/-- Two consecutive `insertLeaves` calls act like one call on the
concatenated batches: the rebuild only depends on the accumulated leaf
level. -/
theorem MerkleTree.insertLeaves_append (H : α → α → α) (t : MerkleTree α)
    (xs ys : List α) :
    (t.insertLeaves H xs).insertLeaves H ys = t.insertLeaves H (xs ++ ys) := by
  by_cases hx : xs.length = 0
  · have hx0 : xs = [] := List.length_eq_zero.mp hx
    subst hx0
    rw [MerkleTree.insertLeaves_nil, List.nil_append]
  · by_cases hy : ys.length = 0
    · have hy0 : ys = [] := List.length_eq_zero.mp hy
      subst hy0
      rw [MerkleTree.insertLeaves_nil, List.append_nil]
    · have hxy : (xs ++ ys).length ≠ 0 := by
        rw [List.length_append]
        omega
      apply MerkleTree.ext_fields
      · rw [MerkleTree.insertLeaves_depth, MerkleTree.insertLeaves_depth,
          MerkleTree.insertLeaves_depth]
      · rw [MerkleTree.insertLeaves_emptyLeaf, MerkleTree.insertLeaves_emptyLeaf,
          MerkleTree.insertLeaves_emptyLeaf]
      · rw [MerkleTree.insertLeaves_emptyBranchLevels,
          MerkleTree.insertLeaves_emptyBranchLevels,
          MerkleTree.insertLeaves_emptyBranchLevels]
      · rw [MerkleTree.insertLeaves_tree H (t.insertLeaves H xs) ys hy,
          MerkleTree.insertLeaves_tree H t (xs ++ ys) hxy,
          MerkleTree.insertLeaves_depth, MerkleTree.insertLeaves_eblAt,
          MerkleTree.insertLeaves_tree_getD H t xs hx 0 (Nat.zero_le _)]
        have hl0 : levelIter H t.eblAt (t.tree.getD 0 [] ++ xs) 0 =
            t.tree.getD 0 [] ++ xs := rfl
        rw [hl0, List.append_assoc]

/-- A tree reachable by constructing at depth `d` and applying a sequence of
`insertLeaves` calls, one per batch. -/
def buildTree (H : α → α → α) (e : α) (d : Nat) (batches : List (List α)) :
    MerkleTree α :=
  batches.foldl (MerkleTree.insertLeaves H) (MerkleTree.new H e d)

theorem foldl_insertLeaves (H : α → α → α) :
    ∀ (batches : List (List α)) (t : MerkleTree α),
      batches.foldl (MerkleTree.insertLeaves H) t = t.insertLeaves H batches.flatten
  | [], t => by
    rw [List.foldl_nil, List.flatten_nil, MerkleTree.insertLeaves_nil]
  | b :: bs, t => by
    rw [List.foldl_cons, List.flatten_cons, foldl_insertLeaves H bs (t.insertLeaves H b),
      MerkleTree.insertLeaves_append]

theorem buildTree_eq (H : α → α → α) (e : α) (d : Nat) (batches : List (List α)) :
    buildTree H e d batches = (MerkleTree.new H e d).insertLeaves H batches.flatten :=
  foldl_insertLeaves H batches (MerkleTree.new H e d)

end Reachability

/-- Claim C6, amended: on every tree reachable by construction at depth `d`
followed by any sequence of `insertLeaves` calls, the root entry
`tree[d][0]` exists; and for `d ≥ 1` every level `l` stores at most
`max 1 (ceil(leafCount / 2^l))` entries, where
`ceil(leafCount / 2^l) = (leafCount + 2^l - 1) / 2^l`.  The `max 1` (absent
from the claim as stated) accounts for the constructor pre-seeding one
entry: the root level of a leafless tree, and — excluded here via `d ≥ 1` —
the level-0 empty leaf of a depth-0 tree. -/
theorem claim6_theorem {α : Type} (H : α → α → α) (e : α) (d : Nat)
    (batches : List (List α)) :
    ((buildTree H e d batches).tree.getD d [])[(0 : Nat)]?.isSome ∧
    (1 ≤ d → ∀ l, l ≤ d →
      ((buildTree H e d batches).tree.getD l []).length ≤
        max 1 ((batches.flatten.length + 2 ^ l - 1) / 2 ^ l)) := by
  rw [buildTree_eq]
  by_cases hn : batches.flatten.length = 0
  · have h0 : batches.flatten = [] := List.length_eq_zero.mp hn
    rw [h0, MerkleTree.insertLeaves_nil]
    constructor
    · rw [MerkleTree.new_tree_getD_depth H e d]
      simp
    · intro _ l hl
      rcases Nat.lt_or_ge l d with hlt | hge
      · rw [MerkleTree.new_tree_getD_lt H e d l hlt]
        simp
      · have hld : l = d := by omega
        rw [hld, MerkleTree.new_tree_getD_depth H e d]
        simp
  · by_cases hd1 : 1 ≤ d
    · have hbase0 : (MerkleTree.new H e d).tree.getD 0 [] = [] :=
        MerkleTree.new_tree_getD_lt H e d 0 hd1
      have htree : ∀ l, l ≤ d →
          ((MerkleTree.new H e d).insertLeaves H batches.flatten).tree.getD l [] =
            levelIter H (MerkleTree.new H e d).eblAt batches.flatten l := by
        intro l hl
        have h2 := MerkleTree.insertLeaves_tree_getD H (MerkleTree.new H e d)
          batches.flatten hn l hl
        rw [hbase0, List.nil_append] at h2
        exact h2
      have hlen : ∀ l, l ≤ d →
          (((MerkleTree.new H e d).insertLeaves H batches.flatten).tree.getD l []).length =
            (batches.flatten.length + 2 ^ l - 1) / 2 ^ l := by
        intro l hl
        rw [htree l hl, levelIter_length]
      constructor
      · have h2d : 0 < 2 ^ d := Nat.two_pow_pos d
        have hpos : 1 ≤ (batches.flatten.length + 2 ^ d - 1) / 2 ^ d := by
          rw [Nat.le_div_iff_mul_le h2d]
          omega
        have hlend := hlen d le_rfl
        rw [List.getElem?_eq_getElem (by omega)]
        rfl
      · intro _ l hl
        rw [hlen l hl]
        exact le_max_right _ _
    · have hd0 : d = 0 := by omega
      subst hd0
      have htree0 := MerkleTree.insertLeaves_tree_getD H (MerkleTree.new H e 0)
        batches.flatten hn 0 le_rfl
      rw [MerkleTree.new_tree_getD_depth H e 0] at htree0
      constructor
      · rw [htree0]
        rw [List.getElem?_eq_getElem (by simp [levelIter])]
        rfl
      · intro hcontra
        exact absurd hcontra (by omega)

/-- Counterexample to C6 as stated: the freshly constructed depth-1 tree
(reachable with the empty call sequence, leaf count 0) has one stored entry
at level 1, exceeding `ceil(0 / 2^1) = 0`. -/
theorem claim6_counterexample :
    ¬ (((buildTree Hnat 0 1 ([] : List (List Nat))).tree.getD 1 []).length ≤
        (([] : List (List Nat)).flatten.length + 2 ^ 1 - 1) / 2 ^ 1) := by
  decide

/-- Witness for C6 on a depth-2 tree filled by two `insertLeaves` calls with
three leaves in total, level 1. -/
theorem claim6_witness :
    ((buildTree Hnat 0 2 [[5, 6], [7]]).tree.getD 1 []).length ≤
      max 1 ((([[5, 6], [7]] : List (List Nat)).flatten.length + 2 ^ 1 - 1) / 2 ^ 1) :=
  (claim6_theorem Hnat 0 2 [[5, 6], [7]]).2 (by decide) 1 (by decide)

section ShamirReconstruction

open Polynomial

/-- Modelled from the spec: the repository reconstructs fraud-investigation
secrets with `reconstructShamirSecret(F, k, shares)` from
`lib/shamirTools.ts`, a file whose implementation is not among the sources
here (only its tests and callers are).  Spec section 4.3 defines it as the
Lagrange interpolation of the shares at `x = 0` over the hash adapter's
field: `secret = Σ_i value_i * Π_{j≠i} (0 - index_j) / (index_i -
index_j)`, all arithmetic in the field.  Shares are indexed by a finite set
`s`, with `x i` the share index and `v i` the share value. -/
def reconstructShamirSecret {F : Type} [Field F] {ι : Type} [DecidableEq ι]
    (s : Finset ι) (x v : ι → F) : F :=
  ∑ i in s, v i * ∏ j in s.erase i, (0 - x j) / (x i - x j)

theorem reconstructShamirSecret_eq_interpolate {F : Type} [Field F] {ι : Type}
    [DecidableEq ι] (s : Finset ι) (x v : ι → F) :
    reconstructShamirSecret s x v = (Lagrange.interpolate s x v).eval 0 := by
  rw [reconstructShamirSecret, Lagrange.interpolate_apply, Polynomial.eval_finset_sum]
  refine Finset.sum_congr rfl ?_
  intro i hi
  rw [Polynomial.eval_mul, Polynomial.eval_C, Lagrange.basis, Polynomial.eval_prod]
  congr 1
  refine Finset.prod_congr rfl ?_
  intro j hj
  rw [Lagrange.basisDivisor, Polynomial.eval_mul, Polynomial.eval_C,
    Polynomial.eval_sub, Polynomial.eval_X, Polynomial.eval_C, div_eq_mul_inv,
    mul_comm]

/-- Claim C8: Shamir reconstruction is share-subset-independent.  For a
secret shared through a polynomial `p` of degree `< k` (the secret being
`p.eval 0`) over share indices `x i` with values `p.eval (x i)`, any two
size-`k` subsets of the `n` valid shares reconstruct the same secret,
namely the Lagrange interpolation of the shares at `x = 0`, which is
`p.eval 0`. -/
theorem claim8_theorem {F : Type} [Field F] {ι : Type} [DecidableEq ι]
    (p : Polynomial F) (k : Nat) (hdeg : p.degree < k)
    (x : ι → F) (n : Finset ι) (hinj : Set.InjOn x n)
    (t₁ t₂ : Finset ι) (h1 : t₁ ⊆ n) (h2 : t₂ ⊆ n)
    (hc1 : t₁.card = k) (hc2 : t₂.card = k) :
    reconstructShamirSecret t₁ x (fun i => p.eval (x i)) = p.eval 0 ∧
    reconstructShamirSecret t₂ x (fun i => p.eval (x i)) = p.eval 0 := by
  have key : ∀ t : Finset ι, t ⊆ n → t.card = k →
      reconstructShamirSecret t x (fun i => p.eval (x i)) = p.eval 0 := by
    intro t ht hc
    rw [reconstructShamirSecret_eq_interpolate]
    rw [← Lagrange.eq_interpolate (hinj.mono (Finset.coe_subset.mpr ht))
      (by rw [hc]; exact hdeg)]
  exact ⟨key t₁ h1 hc1, key t₂ h2 hc2⟩

instance : Fact (Nat.Prime 11) := ⟨by norm_num⟩

/-- Witness for C8 over `ZMod 11` with the sharing polynomial `X² + 5`
(secret 5, threshold 3) and the spec's two subsets `{1,2,3}` and `{3,4,5}`
of the share set `{1,2,3,4,5}`. -/
theorem claim8_witness :
    reconstructShamirSecret ({1, 2, 3} : Finset (ZMod 11)) id
        (fun i => (Polynomial.X ^ 2 + Polynomial.C 5 : Polynomial (ZMod 11)).eval (id i)) =
      (Polynomial.X ^ 2 + Polynomial.C 5 : Polynomial (ZMod 11)).eval 0 ∧
    reconstructShamirSecret ({3, 4, 5} : Finset (ZMod 11)) id
        (fun i => (Polynomial.X ^ 2 + Polynomial.C 5 : Polynomial (ZMod 11)).eval (id i)) =
      (Polynomial.X ^ 2 + Polynomial.C 5 : Polynomial (ZMod 11)).eval 0 :=
  claim8_theorem (Polynomial.X ^ 2 + Polynomial.C 5) 3
    (by rw [Polynomial.degree_X_pow_add_C (by norm_num : 0 < 2)]; decide)
    id {1, 2, 3, 4, 5} Function.injective_id.injOn
    {1, 2, 3} {3, 4, 5} (by decide) (by decide) (by decide) (by decide)

end ShamirReconstruction

section CrossCheckerTime

/-- Errors signalled by the Verification-Predicate Cross-Checker (spec
section 4.4 taxonomy). -/
inductive CrossCheckError
  | StaleOrUnknownRoot
  | TimeOutOfBounds
  | InvalidAttestation
  | UnauthorizedSubmitter
  | InstitutionKeyMismatch
deriving DecidableEq

/-- The protocol's proof-freshness tolerance: 30 minutes, in seconds. -/
def timeCheckTolerance : Int := 30 * 60

/-- Modelled from the spec: the on-chain verifier wrapper contract whose
time check the test
`packages/zk-certificates/test/contracts/twitterZkCertificate.ts` (`revert
if time is too far from current time`) exercises is not among the sources
here.  Spec section 4.4 item 2: accept exactly when
`|T - publicTime| ≤ tolerance` (default 30 minutes), otherwise signal
`TimeOutOfBounds`.  Times are Unix seconds, compared as integers. -/
def timeCheck (chainTime publicTime : Int) : Except CrossCheckError Unit :=
  if |chainTime - publicTime| ≤ timeCheckTolerance then Except.ok ()
  else Except.error CrossCheckError.TimeOutOfBounds

/-- Claim C9: the Cross-Checker's time check accepts a proof exactly when
`|T - publicTime| ≤ 30` minutes and otherwise rejects it with
`TimeOutOfBounds`; in particular a proof 31 minutes from chain time (either
side) is rejected while one 29 minutes off is accepted. -/
theorem claim9_theorem (chainTime publicTime : Int) :
    timeCheckTolerance = 30 * 60 ∧
    (timeCheck chainTime publicTime = Except.ok () ↔
      |chainTime - publicTime| ≤ 30 * 60) ∧
    (¬ |chainTime - publicTime| ≤ 30 * 60 →
      timeCheck chainTime publicTime = Except.error CrossCheckError.TimeOutOfBounds) ∧
    timeCheck (publicTime + 31 * 60) publicTime =
      Except.error CrossCheckError.TimeOutOfBounds ∧
    timeCheck (publicTime - 31 * 60) publicTime =
      Except.error CrossCheckError.TimeOutOfBounds ∧
    timeCheck (publicTime + 29 * 60) publicTime = Except.ok () ∧
    timeCheck (publicTime - 29 * 60) publicTime = Except.ok () := by
  have hok : ∀ T pt : Int, timeCheck T pt = Except.ok () ↔ |T - pt| ≤ 30 * 60 := by
    intro T pt
    by_cases h : |T - pt| ≤ (30 * 60 : Int)
    · simp [timeCheck, timeCheckTolerance, h]
    · simp [timeCheck, timeCheckTolerance, h]
  have herr : ∀ T pt : Int, ¬ |T - pt| ≤ 30 * 60 →
      timeCheck T pt = Except.error CrossCheckError.TimeOutOfBounds := by
    intro T pt h
    rw [timeCheck, if_neg (by simpa [timeCheckTolerance] using h)]
  refine ⟨rfl, hok _ _, herr _ _, ?_, ?_, ?_, ?_⟩
  · apply herr
    rw [show publicTime + 31 * 60 - publicTime = (1860 : Int) by ring]
    decide
  · apply herr
    rw [show publicTime - 31 * 60 - publicTime = (-1860 : Int) by ring]
    decide
  · rw [hok]
    rw [show publicTime + 29 * 60 - publicTime = (1740 : Int) by ring]
    decide
  · rw [hok]
    rw [show publicTime - 29 * 60 - publicTime = (-1740 : Int) by ring]
    decide

/-- Witness for C9 with public time 0: chain time 1860 s (31 min) rejected,
1740 s (29 min) accepted. -/
theorem claim9_witness :
    timeCheck 1860 0 = Except.error CrossCheckError.TimeOutOfBounds ∧
    timeCheck 1740 0 = Except.ok () :=
  ⟨(claim9_theorem 1860 0).2.2.1 (by decide), (claim9_theorem 1740 0).2.1.mpr (by decide)⟩

end CrossCheckerTime

section SnapImport

/-- A holder entry of the snap state (`HolderData`): the import logic reads
only `holderCommitment`; the eddsa keys are irrelevant to it. -/
structure HolderData (α : Type) where
  holderCommitment : α
deriving DecidableEq

/-- A zkCert stored in the snap state (`ZkCertRegistered`): the
`ImportZkCert` branch reads only `holderCommitment` and `leafHash`; the
rest of the certificate (standard, content, merkle proof, provider data) is
opaque to it and carried as `content`. -/
structure ZkCertRegistered (α β : Type) where
  holderCommitment : α
  leafHash : α
  content : β
deriving DecidableEq

/-- The persisted snap state managed by `getState`/`saveState`. -/
structure SnapState (α β : Type) where
  holders : List (HolderData α)
  zkCerts : List (ZkCertRegistered α β)
deriving DecidableEq

/-- Successful outcomes of the `ImportZkCert` branch.  `storageOverview`
carries the zkCert list the source passes to `getZkCertStorageOverview`;
the metadata projection itself is irrelevant to the claims. -/
inductive ImportResult (α β : Type)
  | zkCertAlreadyImported
  | zkCertImported
  | storageOverview (certs : List (ZkCertRegistered α β))
deriving DecidableEq

/-- Errors thrown by the `ImportZkCert` branch. -/
inductive SnapRpcError
  | holderMissing
  | rejectedConfirm
deriving DecidableEq

/-- The `case RpcMethods.ImportZkCert` branch of `processRpcRequest`: look
up a holder for the zkCert's `holderCommitment` (throw if absent), return
`ZkCertAlreadyImported` when a stored zkCert already has this `leafHash`,
otherwise show the confirmation dialog (`confirm` is its outcome; throw
`RejectedConfirm` on decline), push the zkCert and `saveState`.  The
returned state is the state persisted after the call: `saveState` runs only
on the final path, so every other outcome leaves the stored state as it
was. -/
def importZkCert {α β : Type} [DecidableEq α] (state : SnapState α β)
    (zkCert : ZkCertRegistered α β) (listZkCerts : Option Bool) (confirm : Bool) :
    Except SnapRpcError (ImportResult α β × SnapState α β) :=
  match state.holders.find? (fun c => c.holderCommitment == zkCert.holderCommitment) with
  | none => Except.error SnapRpcError.holderMissing
  | some _ =>
    match state.zkCerts.find? (fun c => c.leafHash == zkCert.leafHash) with
    | some _ => Except.ok (ImportResult.zkCertAlreadyImported, state)
    | none =>
      if confirm then
        Except.ok
          (if listZkCerts = some true then
            ImportResult.storageOverview (state.zkCerts ++ [zkCert])
          else ImportResult.zkCertImported,
          { state with zkCerts := state.zkCerts ++ [zkCert] })
      else Except.error SnapRpcError.rejectedConfirm

end SnapImport

/-- Claim C10: the `ImportZkCert` method deduplicates by leaf hash.  When a
holder for the zkCert is set up and a stored zkCert already carries the
same `leafHash`, the call returns the `ZkCertAlreadyImported` message with
the persisted holders and zkCerts lists completely unchanged; and on every
outcome of the method, pairwise-distinct stored leaf hashes stay pairwise
distinct, so the method never creates two stored zkCerts sharing a
`leafHash`. -/
theorem claim10_theorem {α β : Type} [DecidableEq α] (state : SnapState α β)
    (zkCert : ZkCertRegistered α β) (listZkCerts : Option Bool) (confirm : Bool)
    (hholder : ∃ h ∈ state.holders, h.holderCommitment = zkCert.holderCommitment) :
    ((∃ c ∈ state.zkCerts, c.leafHash = zkCert.leafHash) →
      importZkCert state zkCert listZkCerts confirm =
        Except.ok (ImportResult.zkCertAlreadyImported, state)) ∧
    ((state.zkCerts.map (fun c => c.leafHash)).Nodup →
      ∀ out, importZkCert state zkCert listZkCerts confirm = Except.ok out →
        (out.2.zkCerts.map (fun c => c.leafHash)).Nodup) := by
  obtain ⟨h0, hh0, hcomm⟩ := hholder
  have hfindH :
      state.holders.find? (fun c => c.holderCommitment == zkCert.holderCommitment) ≠
        none := by
    intro hnone
    rw [List.find?_eq_none] at hnone
    exact hnone h0 hh0 (by rw [beq_iff_eq]; exact hcomm)
  rcases hfH : state.holders.find? (fun c => c.holderCommitment == zkCert.holderCommitment)
    with _ | hfound
  · exact absurd hfH hfindH
  constructor
  · rintro ⟨c, hc, hlh⟩
    have hC : state.zkCerts.find? (fun x => x.leafHash == zkCert.leafHash) ≠ none := by
      intro hnone
      rw [List.find?_eq_none] at hnone
      exact hnone c hc (by rw [beq_iff_eq]; exact hlh)
    rcases hfC : state.zkCerts.find? (fun x => x.leafHash == zkCert.leafHash)
      with _ | cfound
    · exact absurd hfC hC
    · simp only [importZkCert, hfH, hfC]
  · intro hnodup out hout
    rcases hfC : state.zkCerts.find? (fun x => x.leafHash == zkCert.leafHash)
      with _ | cfound
    · cases confirm with
      | false => simp [importZkCert, hfH, hfC] at hout
      | true =>
        simp only [importZkCert, hfH, hfC, if_true, Except.ok.injEq] at hout
        subst hout
        have hnotin : zkCert.leafHash ∉ state.zkCerts.map (fun c => c.leafHash) := by
          intro hmem
          rw [List.mem_map] at hmem
          obtain ⟨c, hc, hlh⟩ := hmem
          rw [List.find?_eq_none] at hfC
          exact hfC c hc (by rw [beq_iff_eq]; exact hlh)
        show ((state.zkCerts ++ [zkCert]).map (fun c => c.leafHash)).Nodup
        rw [List.map_append, List.nodup_append]
        refine ⟨hnodup, by simp, ?_⟩
        intro a ha hb
        simp only [List.map_cons, List.map_nil, List.mem_singleton] at hb
        subst hb
        exact hnotin ha
    · simp only [importZkCert, hfH, hfC, Except.ok.injEq] at hout
      subst hout
      exact hnodup

/-- Witness for C10: importing a zkCert whose leaf hash `100` is already
stored returns `ZkCertAlreadyImported` with the state unchanged. -/
theorem claim10_witness :
    importZkCert (⟨[⟨10⟩], [⟨10, 100, ()⟩]⟩ : SnapState Nat Unit) ⟨10, 100, ()⟩
        none true =
      Except.ok (ImportResult.zkCertAlreadyImported,
        (⟨[⟨10⟩], [⟨10, 100, ()⟩]⟩ : SnapState Nat Unit)) :=
  (claim10_theorem (⟨[⟨10⟩], [⟨10, 100, ()⟩]⟩ : SnapState Nat Unit) ⟨10, 100, ()⟩
    none true (by decide)).1 (by decide)
